import Mathlib

/-!
Shallow embedding of the `ginga` block cipher (`ginga.go`) over `Nat`,
with machine words represented as natural numbers below `2 ^ 32` and all
wraparound arithmetic made explicit by `% 2 ^ 32`.  Byte slices are
`List Nat` with entries below 256.
-/

namespace Ginga

/-- `const BlockSize = 16` -/
def BlockSize : Nat := 16

/-- `const Rounds = 16` -/
def Rounds : Nat := 16

/-- `add32`: addition on `uint32`, i.e. modulo `2 ^ 32`. -/
def add32 (x y : Nat) : Nat := (x + y) % 2 ^ 32

/-- `sub32`: subtraction on `uint32`; on naturals, `x - y` wraps to
`x + (2 ^ 32 - y % 2 ^ 32)` modulo `2 ^ 32`. -/
def sub32 (x y : Nat) : Nat := (x + (2 ^ 32 - y % 2 ^ 32)) % 2 ^ 32

/-- `rotl32` = `bits.RotateLeft32 x n` for `n ≥ 0`: with `s = n mod 32`,
`x<<s | x>>(32-s)`, the left shift truncated to 32 bits. -/
def rotl32 (x n : Nat) : Nat :=
  (x <<< (n % 32)) % 2 ^ 32 ||| x >>> (32 - n % 32)

/-- `rotr32` = `bits.RotateLeft32 x (-n)`: a left rotation by
`(-n) mod 32 = (32 - n mod 32) mod 32`. -/
def rotr32 (x n : Nat) : Nat := rotl32 x ((32 - n % 32) % 32)

/-- `confuse32`: XOR with `0xA5A5A5A5`, add `0x3C3C3C3C` mod `2 ^ 32`,
rotate left by 7. -/
def confuse32 (x : Nat) : Nat :=
  rotl32 (add32 (x ^^^ 0xA5A5A5A5) 0x3C3C3C3C) 7

/-- `deconfuse32`: rotate right by 7, subtract `0x3C3C3C3C` mod `2 ^ 32`,
XOR with `0xA5A5A5A5`. -/
def deconfuse32 (x : Nat) : Nat :=
  sub32 (rotr32 x 7) 0x3C3C3C3C ^^^ 0xA5A5A5A5

/-- `round32`: add subkey, confuse, rotate by `(r+3)&31`, XOR subkey,
rotate by `(r+5)&31`. -/
def round32 (x k r : Nat) : Nat :=
  let x1 := add32 x k
  let x2 := confuse32 x1
  let x3 := rotl32 x2 ((r + 3) &&& 31)
  let x4 := x3 ^^^ k
  rotl32 x4 ((r + 5) &&& 31)

/-- `invRound32`: the declared inverse of `round32`. -/
def invRound32 (x k r : Nat) : Nat :=
  let x1 := rotr32 x ((r + 5) &&& 31)
  let x2 := x1 ^^^ k
  let x3 := rotr32 x2 ((r + 3) &&& 31)
  let x4 := deconfuse32 x3
  sub32 x4 k

/-- `subKey32`: `rotl32(k[(i+round)&7] ^ uint32(i*73+round*91), (round+i)&31)`. -/
def subKey32 (k : Nat → Nat) (round i : Nat) : Nat :=
  let base := k ((i + round) &&& 7)
  rotl32 (base ^^^ (i * 73 + round * 91) % 2 ^ 32) ((round + i) &&& 31)

/-- The 4-word cipher state `[4]uint32`. -/
structure State32 where
  s0 : Nat
  s1 : Nat
  s2 : Nat
  s3 : Nat
deriving DecidableEq

/-- `mixState32`: sequential in-place XOR mixing; `state[3]` reads the
already-updated `state[0]`. -/
def mixState32 (s : State32) : State32 :=
  let a0 := s.s0 ^^^ rotl32 s.s1 5
  let a1 := s.s1 ^^^ rotl32 s.s2 11
  let a2 := s.s2 ^^^ rotl32 s.s3 17
  let a3 := s.s3 ^^^ rotl32 a0 23
  ⟨a0, a1, a2, a3⟩

/-- `invMixState32`: the reverse sequence of XOR updates. -/
def invMixState32 (s : State32) : State32 :=
  let a3 := s.s3 ^^^ rotl32 s.s0 23
  let a2 := s.s2 ^^^ rotl32 a3 17
  let a1 := s.s1 ^^^ rotl32 a2 11
  let a0 := s.s0 ^^^ rotl32 a1 5
  ⟨a0, a1, a2, a3⟩

section CoreLemmas

lemma two32_pos : 0 < 2 ^ 32 := by norm_num

lemma and_31 (n : Nat) : n &&& 31 = n % 32 := by
  simpa using Nat.and_pow_two_sub_one_eq_mod n 5

lemma and_7 (n : Nat) : n &&& 7 = n % 8 := by
  simpa using Nat.and_pow_two_sub_one_eq_mod n 3

lemma add32_lt (x y : Nat) : add32 x y < 2 ^ 32 := Nat.mod_lt _ two32_pos

lemma sub32_lt (x y : Nat) : sub32 x y < 2 ^ 32 := Nat.mod_lt _ two32_pos

lemma rotl32_lt {x : Nat} (n : Nat) (hx : x < 2 ^ 32) : rotl32 x n < 2 ^ 32 := by
  unfold rotl32
  exact Nat.or_lt_two_pow (Nat.mod_lt _ two32_pos)
    (lt_of_le_of_lt (by rw [Nat.shiftRight_eq_div_pow]; exact Nat.div_le_self _ _) hx)

lemma rotr32_lt {x : Nat} (n : Nat) (hx : x < 2 ^ 32) : rotr32 x n < 2 ^ 32 :=
  rotl32_lt _ hx

/-- Closed form of `rotl32` for in-range arguments: the low `32 - n` bits
shift up, the high `n` bits move to the bottom. -/
lemma rotl32_eq_of_lt {x n : Nat} (hx : x < 2 ^ 32) (hn : n < 32) :
    rotl32 x n = x % 2 ^ (32 - n) * 2 ^ n + x / 2 ^ (32 - n) := by
  unfold rotl32
  rw [Nat.mod_eq_of_lt hn, Nat.shiftLeft_eq, Nat.shiftRight_eq_div_pow]
  have epow : 2 ^ (32 - n) * 2 ^ n = 2 ^ 32 := by
    rw [← pow_add]; congr 1; omega
  have hdiv : x / 2 ^ (32 - n) < 2 ^ n := by
    rw [Nat.div_lt_iff_lt_mul (Nat.pos_pow_of_pos _ (by norm_num))]
    calc x < 2 ^ 32 := hx
    _ = 2 ^ (32 - n) * 2 ^ n := epow.symm
    _ = 2 ^ n * 2 ^ (32 - n) := by ring
  have hmodmul : x % 2 ^ (32 - n) * 2 ^ n < 2 ^ 32 := by
    calc x % 2 ^ (32 - n) * 2 ^ n
        < 2 ^ (32 - n) * 2 ^ n :=
          mul_lt_mul_of_pos_right
            (Nat.mod_lt _ (Nat.pos_pow_of_pos _ (by norm_num)))
            (Nat.pos_pow_of_pos _ (by norm_num))
    _ = 2 ^ 32 := epow
  have h1 : x * 2 ^ n % 2 ^ 32 = x % 2 ^ (32 - n) * 2 ^ n := by
    conv_lhs => rw [← Nat.div_add_mod' x (2 ^ (32 - n)), Nat.add_mul,
      Nat.mul_assoc (x / 2 ^ (32 - n)), epow,
      Nat.mul_comm (x / 2 ^ (32 - n)) (2 ^ 32)]
    rw [Nat.mul_add_mod, Nat.mod_eq_of_lt hmodmul]
  rw [h1, Nat.mul_comm (x % 2 ^ (32 - n)) (2 ^ n), Nat.mul_add_lt_is_or hdiv]

lemma rotl32_self_of_ge {x n : Nat} (hx : x < 2 ^ 32) (hn : n % 32 = 0) :
    rotl32 x n = x := by
  unfold rotl32
  rw [hn, Nat.shiftLeft_eq, pow_zero, Nat.mul_one, Nat.mod_eq_of_lt hx, Nat.sub_zero,
    Nat.shiftRight_eq_div_pow, Nat.div_eq_of_lt hx, Nat.or_zero]

lemma rotr32_eq_of_lt {x n : Nat} (hx : x < 2 ^ 32) (h0 : 0 < n) (hn : n < 32) :
    rotr32 x n = x % 2 ^ n * 2 ^ (32 - n) + x / 2 ^ n := by
  unfold rotr32
  have e1 : (32 - n % 32) % 32 = 32 - n := by omega
  rw [e1, rotl32_eq_of_lt hx (by omega)]
  have e2 : 32 - (32 - n) = n := by omega
  rw [e2]

/-- Right rotation undoes left rotation on 32-bit values. -/
lemma rotr32_rotl32 {x : Nat} (n : Nat) (hx : x < 2 ^ 32) (hn : n < 32) :
    rotr32 (rotl32 x n) n = x := by
  rcases Nat.eq_zero_or_pos n with h0 | hpos
  · subst h0
    rw [rotl32_self_of_ge hx rfl]
    unfold rotr32
    exact rotl32_self_of_ge hx (by norm_num)
  · have epow : 2 ^ (32 - n) * 2 ^ n = 2 ^ 32 := by
      rw [← pow_add]; congr 1; omega
    have hdiv : x / 2 ^ (32 - n) < 2 ^ n := by
      rw [Nat.div_lt_iff_lt_mul (Nat.pos_pow_of_pos _ (by norm_num))]
      calc x < 2 ^ 32 := hx
      _ = 2 ^ (32 - n) * 2 ^ n := epow.symm
      _ = 2 ^ n * 2 ^ (32 - n) := by ring
    rw [rotl32_eq_of_lt hx hn]
    have hL : x % 2 ^ (32 - n) * 2 ^ n + x / 2 ^ (32 - n) < 2 ^ 32 := by
      have hm : x % 2 ^ (32 - n) < 2 ^ (32 - n) :=
        Nat.mod_lt _ (Nat.pos_pow_of_pos _ (by norm_num))
      calc x % 2 ^ (32 - n) * 2 ^ n + x / 2 ^ (32 - n)
          < x % 2 ^ (32 - n) * 2 ^ n + 2 ^ n := by omega
      _ = (x % 2 ^ (32 - n) + 1) * 2 ^ n := by ring
      _ ≤ 2 ^ (32 - n) * 2 ^ n := Nat.mul_le_mul_right _ (by omega)
      _ = 2 ^ 32 := epow
    rw [rotr32_eq_of_lt hL hpos hn]
    have e1 : (x % 2 ^ (32 - n) * 2 ^ n + x / 2 ^ (32 - n)) % 2 ^ n
        = x / 2 ^ (32 - n) := by
      rw [Nat.mul_comm (x % 2 ^ (32 - n)) (2 ^ n), Nat.mul_add_mod]
      exact Nat.mod_eq_of_lt hdiv
    have e2 : (x % 2 ^ (32 - n) * 2 ^ n + x / 2 ^ (32 - n)) / 2 ^ n
        = x % 2 ^ (32 - n) := by
      rw [Nat.mul_comm (x % 2 ^ (32 - n)) (2 ^ n),
        Nat.mul_add_div (Nat.pos_pow_of_pos _ (by norm_num)),
        Nat.div_eq_of_lt hdiv, Nat.add_zero]
    rw [e1, e2, Nat.div_add_mod']

/-- Left rotation undoes right rotation on 32-bit values. -/
lemma rotl32_rotr32 {x : Nat} (n : Nat) (hx : x < 2 ^ 32) (hn : n < 32) :
    rotl32 (rotr32 x n) n = x := by
  rcases Nat.eq_zero_or_pos n with h0 | hpos
  · subst h0
    have e : rotr32 x 0 = x := by
      unfold rotr32; exact rotl32_self_of_ge hx (by norm_num)
    rw [e]
    exact rotl32_self_of_ge hx rfl
  · have e1 : rotr32 x n = rotl32 x (32 - n) := by
      unfold rotr32; congr 1; omega
    have e2 : ∀ y : Nat, rotl32 y n = rotr32 y (32 - n) := by
      intro y; unfold rotr32; congr 1; omega
    rw [e1, e2]
    exact rotr32_rotl32 (32 - n) hx (by omega)

lemma sub32_add32 {x y : Nat} (hx : x < 2 ^ 32) (hy : y < 2 ^ 32) :
    sub32 (add32 x y) y = x := by
  unfold add32 sub32
  omega

lemma add32_sub32 {x y : Nat} (hx : x < 2 ^ 32) (hy : y < 2 ^ 32) :
    add32 (sub32 x y) y = x := by
  unfold add32 sub32
  omega

lemma confuse32_lt (x : Nat) : confuse32 x < 2 ^ 32 :=
  rotl32_lt _ (add32_lt _ _)

lemma deconfuse32_lt (x : Nat) : deconfuse32 x < 2 ^ 32 :=
  Nat.xor_lt_two_pow (sub32_lt _ _) (by norm_num)

/-- `deconfuse32` inverts `confuse32` on 32-bit values. -/
lemma deconfuse32_confuse32 {x : Nat} (hx : x < 2 ^ 32) :
    deconfuse32 (confuse32 x) = x := by
  unfold confuse32 deconfuse32
  rw [rotr32_rotl32 7 (add32_lt _ _) (by norm_num),
    sub32_add32 (Nat.xor_lt_two_pow hx (by norm_num)) (by norm_num),
    Nat.xor_cancel_right]

/-- `confuse32` inverts `deconfuse32` on 32-bit values. -/
lemma confuse32_deconfuse32 {x : Nat} (hx : x < 2 ^ 32) :
    confuse32 (deconfuse32 x) = x := by
  unfold confuse32 deconfuse32
  rw [Nat.xor_cancel_right,
    add32_sub32 (rotr32_lt 7 hx) (by norm_num),
    rotl32_rotr32 7 hx (by norm_num)]

lemma round32_lt (x : Nat) {k : Nat} (r : Nat) (hk : k < 2 ^ 32) :
    round32 x k r < 2 ^ 32 := by
  unfold round32
  exact rotl32_lt _ (Nat.xor_lt_two_pow (rotl32_lt _ (confuse32_lt _)) hk)

lemma invRound32_lt (x k r : Nat) : invRound32 x k r < 2 ^ 32 := by
  unfold invRound32
  exact sub32_lt _ _

lemma subKey32_lt (k : Nat → Nat) (round i : Nat)
    (hk : ∀ j, k j < 2 ^ 32) : subKey32 k round i < 2 ^ 32 := by
  unfold subKey32
  exact rotl32_lt _ (Nat.xor_lt_two_pow (hk _) (Nat.mod_lt _ two32_pos))

/-- `invRound32` inverts `round32` for any round index and 32-bit inputs. -/
lemma invRound32_round32 {x k : Nat} (r : Nat) (hx : x < 2 ^ 32)
    (hk : k < 2 ^ 32) : invRound32 (round32 x k r) k r = x := by
  unfold round32 invRound32
  simp only [and_31]
  rw [rotr32_rotl32 _ (Nat.xor_lt_two_pow (rotl32_lt _ (confuse32_lt _)) hk)
      (Nat.mod_lt _ (by norm_num)),
    Nat.xor_cancel_right,
    rotr32_rotl32 _ (confuse32_lt _) (Nat.mod_lt _ (by norm_num)),
    deconfuse32_confuse32 (add32_lt _ _),
    sub32_add32 hx hk]

/-- `round32` inverts `invRound32` for any round index and 32-bit inputs. -/
lemma round32_invRound32 {x k : Nat} (r : Nat) (hx : x < 2 ^ 32)
    (hk : k < 2 ^ 32) : round32 (invRound32 x k r) k r = x := by
  unfold round32 invRound32
  simp only [and_31]
  rw [add32_sub32 (deconfuse32_lt _) hk,
    confuse32_deconfuse32 (rotr32_lt _ (Nat.xor_lt_two_pow (rotr32_lt _ hx) hk)),
    rotl32_rotr32 _ (Nat.xor_lt_two_pow (rotr32_lt _ hx) hk)
      (Nat.mod_lt _ (by norm_num)),
    Nat.xor_cancel_right,
    rotl32_rotr32 _ hx (Nat.mod_lt _ (by norm_num))]

/-- Boundedness of a 4-word state: every word fits in 32 bits. -/
def StBound (s : State32) : Prop :=
  s.s0 < 2 ^ 32 ∧ s.s1 < 2 ^ 32 ∧ s.s2 < 2 ^ 32 ∧ s.s3 < 2 ^ 32

lemma mixState32_invMixState32 (s : State32) :
    mixState32 (invMixState32 s) = s := by
  cases s
  simp [mixState32, invMixState32, Nat.xor_cancel_right]

lemma invMixState32_mixState32 (s : State32) :
    invMixState32 (mixState32 s) = s := by
  cases s
  simp [mixState32, invMixState32, Nat.xor_cancel_right]

lemma mixState32_bound {s : State32} (hs : StBound s) :
    StBound (mixState32 s) := by
  obtain ⟨h0, h1, h2, h3⟩ := hs
  refine ⟨?_, ?_, ?_, ?_⟩ <;>
    simp only [mixState32] <;>
    repeat' first
      | exact Nat.xor_lt_two_pow (by assumption) (rotl32_lt _ (by assumption))
      | apply Nat.xor_lt_two_pow
      | apply rotl32_lt
      | assumption

lemma invMixState32_bound {s : State32} (hs : StBound s) :
    StBound (invMixState32 s) := by
  obtain ⟨h0, h1, h2, h3⟩ := hs
  refine ⟨?_, ?_, ?_, ?_⟩ <;>
    simp only [invMixState32] <;>
    repeat' first
      | apply Nat.xor_lt_two_pow
      | apply rotl32_lt
      | assumption

end CoreLemmas

/-- One encryption round of the `Encrypt` loop body: apply `round32` to each
word with its subkey, then `mixState32`. -/
def encRound (k : Nat → Nat) (r : Nat) (s : State32) : State32 :=
  mixState32
    ⟨round32 s.s0 (subKey32 k r 0) r,
     round32 s.s1 (subKey32 k r 1) r,
     round32 s.s2 (subKey32 k r 2) r,
     round32 s.s3 (subKey32 k r 3) r⟩

/-- One decryption round of the `Decrypt` loop body: `invMixState32`, then
`invRound32` on each word. -/
def decRound (k : Nat → Nat) (r : Nat) (s : State32) : State32 :=
  let t := invMixState32 s
  ⟨invRound32 t.s0 (subKey32 k r 0) r,
   invRound32 t.s1 (subKey32 k r 1) r,
   invRound32 t.s2 (subKey32 k r 2) r,
   invRound32 t.s3 (subKey32 k r 3) r⟩

/-- `for r := 0; r < n; r++`: rounds `0, 1, …, n-1` in ascending order. -/
def encRounds (k : Nat → Nat) (s : State32) : Nat → State32
  | 0 => s
  | n + 1 => encRound k n (encRounds k s n)

/-- `for r := n-1; r >= 0; r--`: rounds `n-1, n-2, …, 0` in descending
order (round `n-1` is applied first). -/
def decRounds (k : Nat → Nat) (s : State32) : Nat → State32
  | 0 => s
  | n + 1 => decRounds k (decRound k n s) n

section RoundLemmas

lemma encRound_bound (k : Nat → Nat) (r : Nat) (s : State32)
    (hk : ∀ j, k j < 2 ^ 32) : StBound (encRound k r s) := by
  unfold encRound
  exact mixState32_bound
    ⟨round32_lt _ _ (subKey32_lt _ _ _ hk), round32_lt _ _ (subKey32_lt _ _ _ hk),
     round32_lt _ _ (subKey32_lt _ _ _ hk), round32_lt _ _ (subKey32_lt _ _ _ hk)⟩

lemma decRound_bound (k : Nat → Nat) (r : Nat) (s : State32) :
    StBound (decRound k r s) :=
  ⟨invRound32_lt _ _ _, invRound32_lt _ _ _, invRound32_lt _ _ _, invRound32_lt _ _ _⟩

lemma encRounds_bound (k : Nat → Nat) (s : State32) (hk : ∀ j, k j < 2 ^ 32)
    (hs : StBound s) : ∀ n, StBound (encRounds k s n)
  | 0 => hs
  | n + 1 => encRound_bound k n _ hk

lemma decRounds_bound (k : Nat → Nat) (hk : ∀ j, k j < 2 ^ 32) :
    ∀ (n : Nat) (s : State32), StBound s → StBound (decRounds k s n)
  | 0, _, hs => hs
  | n + 1, s, _ => decRounds_bound k hk n _ (decRound_bound k n s)

lemma decRound_encRound (k : Nat → Nat) (r : Nat) (s : State32)
    (hk : ∀ j, k j < 2 ^ 32) (hs : StBound s) :
    decRound k r (encRound k r s) = s := by
  obtain ⟨h0, h1, h2, h3⟩ := hs
  cases s
  unfold encRound decRound
  rw [invMixState32_mixState32]
  simp only [State32.mk.injEq]
  exact ⟨invRound32_round32 r h0 (subKey32_lt _ _ _ hk),
    invRound32_round32 r h1 (subKey32_lt _ _ _ hk),
    invRound32_round32 r h2 (subKey32_lt _ _ _ hk),
    invRound32_round32 r h3 (subKey32_lt _ _ _ hk)⟩

lemma encRound_decRound (k : Nat → Nat) (r : Nat) (s : State32)
    (hk : ∀ j, k j < 2 ^ 32) (hs : StBound s) :
    encRound k r (decRound k r s) = s := by
  have ht : StBound (invMixState32 s) := invMixState32_bound hs
  obtain ⟨t0, t1, t2, t3⟩ := ht
  unfold decRound encRound
  rw [round32_invRound32 r t0 (subKey32_lt _ _ _ hk),
    round32_invRound32 r t1 (subKey32_lt _ _ _ hk),
    round32_invRound32 r t2 (subKey32_lt _ _ _ hk),
    round32_invRound32 r t3 (subKey32_lt _ _ _ hk)]
  exact mixState32_invMixState32 s

lemma decRounds_encRounds (k : Nat → Nat) (s : State32)
    (hk : ∀ j, k j < 2 ^ 32) (hs : StBound s) :
    ∀ n, decRounds k (encRounds k s n) n = s := by
  intro n
  induction n with
  | zero => rfl
  | succ n ih =>
    show decRounds k (decRound k n (encRound k n (encRounds k s n))) n = s
    rw [decRound_encRound k n _ hk (encRounds_bound k s hk hs n)]
    exact ih

lemma encRounds_decRounds (k : Nat → Nat)
    (hk : ∀ j, k j < 2 ^ 32) :
    ∀ (n : Nat) (s : State32), StBound s →
      encRounds k (decRounds k s n) n = s := by
  intro n
  induction n with
  | zero => exact fun s _ => rfl
  | succ n ih =>
    intro s hs
    show encRound k n (encRounds k (decRounds k (decRound k n s) n) n) = s
    rw [ih _ (decRound_bound k n s)]
    exact encRound_decRound k n s hk hs

end RoundLemmas

/-- `binary.LittleEndian.Uint32(b[4*i : 4*i+4])`: least-significant byte
first. Out-of-range reads default to 0 (never exercised after the length
checks). -/
def leUint32 (b : List Nat) (i : Nat) : Nat :=
  b.getD (4 * i) 0 + b.getD (4 * i + 1) 0 * 256
    + b.getD (4 * i + 2) 0 * 65536 + b.getD (4 * i + 3) 0 * 16777216

/-- `binary.LittleEndian.PutUint32`: the four bytes of a word,
least-significant first. -/
def putUint32 (w : Nat) : List Nat :=
  [w % 256, w / 256 % 256, w / 65536 % 256, w / 16777216 % 256]

/-- The state loading loop of `Encrypt`/`Decrypt`. -/
def stateOfBytes (b : List Nat) : State32 :=
  ⟨leUint32 b 0, leUint32 b 1, leUint32 b 2, leUint32 b 3⟩

/-- The output-writing loop of `Encrypt`/`Decrypt`. -/
def bytesOfState (s : State32) : List Nat :=
  putUint32 s.s0 ++ putUint32 s.s1 ++ putUint32 s.s2 ++ putUint32 s.s3

/-- The key loading loop: `k[i] = binary.LittleEndian.Uint32(key[4*i:4*i+4])`. -/
def keyWords (key : List Nat) : Nat → Nat := fun i => leUint32 key i

/-- `Encrypt(plain, key []byte) ([]byte, error)`. -/
def Encrypt (plain key : List Nat) : Except String (List Nat) :=
  if plain.length ≠ BlockSize then
    .error "ginga: plaintext must be 16 bytes"
  else if key.length ≠ 32 then
    .error "ginga: key must be 32 bytes (256 bits)"
  else
    .ok (bytesOfState (encRounds (keyWords key) (stateOfBytes plain) Rounds))

/-- `Decrypt(ciphertext, key []byte) ([]byte, error)`. -/
def Decrypt (ciphertext key : List Nat) : Except String (List Nat) :=
  if ciphertext.length ≠ BlockSize then
    .error "ginga: ciphertext must be 16 bytes"
  else if key.length ≠ 32 then
    .error "ginga: key must be 32 bytes (256 bits)"
  else
    .ok (bytesOfState (decRounds (keyWords key) (stateOfBytes ciphertext) Rounds))

section CodecLemmas

lemma getD_lt_of_bytes {b : List Nat} (hb : ∀ x ∈ b, x < 256) (n : Nat) :
    b.getD n 0 < 256 := by
  rcases Nat.lt_or_ge n b.length with h | h
  · rw [List.getD_eq_getElem b 0 h]
    exact hb _ (List.getElem_mem h)
  · rw [List.getD_eq_default b 0 h]
    norm_num

lemma leUint32_lt {b : List Nat} (hb : ∀ x ∈ b, x < 256) (i : Nat) :
    leUint32 b i < 2 ^ 32 := by
  have h0 := getD_lt_of_bytes hb (4 * i)
  have h1 := getD_lt_of_bytes hb (4 * i + 1)
  have h2 := getD_lt_of_bytes hb (4 * i + 2)
  have h3 := getD_lt_of_bytes hb (4 * i + 3)
  unfold leUint32
  omega

lemma keyWords_lt {key : List Nat} (hk : ∀ x ∈ key, x < 256) (j : Nat) :
    keyWords key j < 2 ^ 32 := leUint32_lt hk j

lemma stateOfBytes_bound {b : List Nat} (hb : ∀ x ∈ b, x < 256) :
    StBound (stateOfBytes b) :=
  ⟨leUint32_lt hb 0, leUint32_lt hb 1, leUint32_lt hb 2, leUint32_lt hb 3⟩

lemma bytesOfState_length (s : State32) : (bytesOfState s).length = 16 := by
  simp [bytesOfState, putUint32]

lemma bytesOfState_bytes (s : State32) : ∀ x ∈ bytesOfState s, x < 256 := by
  intro x hx
  simp only [bytesOfState, putUint32, List.mem_append, List.mem_cons,
    List.not_mem_nil, or_false] at hx
  repeat' rcases hx with hx | hx
  all_goals omega

/-- Loading the bytes of a bounded state recovers the state:
`binary.LittleEndian.Uint32 ∘ PutUint32 = id` on 32-bit words. -/
lemma stateOfBytes_bytesOfState {s : State32} (hs : StBound s) :
    stateOfBytes (bytesOfState s) = s := by
  obtain ⟨a, b, c, d⟩ := s
  have h0 : a < 2 ^ 32 := hs.1
  have h1 : b < 2 ^ 32 := hs.2.1
  have h2 : c < 2 ^ 32 := hs.2.2.1
  have h3 : d < 2 ^ 32 := hs.2.2.2
  simp [stateOfBytes, bytesOfState, putUint32, leUint32]
  omega

/-- A list of length 16 is an explicit 16-element list. -/
lemma list_eq_of_length_16 (b : List Nat) (h : b.length = 16) :
    ∃ x0 x1 x2 x3 x4 x5 x6 x7 x8 x9 x10 x11 x12 x13 x14 x15 : Nat,
      b = [x0, x1, x2, x3, x4, x5, x6, x7,
           x8, x9, x10, x11, x12, x13, x14, x15] := by
  rcases b with _ | ⟨x0, b⟩; · simp at h
  rcases b with _ | ⟨x1, b⟩; · simp at h
  rcases b with _ | ⟨x2, b⟩; · simp at h
  rcases b with _ | ⟨x3, b⟩; · simp at h
  rcases b with _ | ⟨x4, b⟩; · simp at h
  rcases b with _ | ⟨x5, b⟩; · simp at h
  rcases b with _ | ⟨x6, b⟩; · simp at h
  rcases b with _ | ⟨x7, b⟩; · simp at h
  rcases b with _ | ⟨x8, b⟩; · simp at h
  rcases b with _ | ⟨x9, b⟩; · simp at h
  rcases b with _ | ⟨x10, b⟩; · simp at h
  rcases b with _ | ⟨x11, b⟩; · simp at h
  rcases b with _ | ⟨x12, b⟩; · simp at h
  rcases b with _ | ⟨x13, b⟩; · simp at h
  rcases b with _ | ⟨x14, b⟩; · simp at h
  rcases b with _ | ⟨x15, b⟩; · simp at h
  rcases b with _ | ⟨x16, b⟩
  · exact ⟨x0, x1, x2, x3, x4, x5, x6, x7, x8, x9, x10, x11, x12, x13, x14, x15,
      rfl⟩
  · simp at h

/-- Writing out the words loaded from a 16-byte input recovers the input. -/
lemma bytesOfState_stateOfBytes {b : List Nat} (hlen : b.length = 16)
    (hb : ∀ x ∈ b, x < 256) :
    bytesOfState (stateOfBytes b) = b := by
  obtain ⟨x0, x1, x2, x3, x4, x5, x6, x7, x8, x9, x10, x11, x12, x13, x14, x15,
    rfl⟩ := list_eq_of_length_16 b hlen
  simp only [List.mem_cons, List.not_mem_nil, or_false, forall_eq_or_imp,
    forall_eq] at hb
  simp [bytesOfState, stateOfBytes, putUint32, leUint32]
  omega

end CodecLemmas

section ApiLemmas

lemma Encrypt_ok {plain key : List Nat} (hp : plain.length = 16)
    (hk : key.length = 32) :
    Encrypt plain key
      = .ok (bytesOfState (encRounds (keyWords key) (stateOfBytes plain) 16)) := by
  simp [Encrypt, BlockSize, Rounds, hp, hk]

lemma Decrypt_ok {ciphertext key : List Nat} (hc : ciphertext.length = 16)
    (hk : key.length = 32) :
    Decrypt ciphertext key
      = .ok (bytesOfState (decRounds (keyWords key) (stateOfBytes ciphertext) 16)) := by
  simp [Decrypt, BlockSize, Rounds, hc, hk]

end ApiLemmas

/-- `type gingaCipher struct { key []byte }`; `NewCipher` stores a private
copy of the key, which value semantics gives us for free. -/
structure GingaCipher where
  key : List Nat
deriving DecidableEq

/-- `NewCipher(key []byte) (cipher.Block, error)`. -/
def NewCipher (key : List Nat) : Except String GingaCipher :=
  if key.length ≠ 32 then
    .error "ginga: invalid key size (must be 32 bytes)"
  else
    .ok ⟨key⟩

/-- `(c *gingaCipher) BlockSize() int`. -/
def GingaCipher.blockSize (_ : GingaCipher) : Nat := BlockSize

/-- Go's `copy(dst, src)`: overwrite the first `min |dst| |src|` entries of
`dst` with those of `src`, leaving the rest of `dst` unchanged. -/
def copyBytes (dst src : List Nat) : List Nat :=
  src.take (min dst.length src.length) ++ dst.drop (min dst.length src.length)

/-- `(c *gingaCipher) Encrypt(dst, src []byte)`: `none` models a `panic`. -/
def GingaCipher.encryptInto (c : GingaCipher) (dst src : List Nat) :
    Option (List Nat) :=
  if src.length < BlockSize ∨ dst.length < BlockSize then
    none
  else
    match Encrypt (src.take BlockSize) c.key with
    | .error _ => none
    | .ok out => some (copyBytes dst out)

/-- `(c *gingaCipher) Decrypt(dst, src []byte)`: `none` models a `panic`. -/
def GingaCipher.decryptInto (c : GingaCipher) (dst src : List Nat) :
    Option (List Nat) :=
  if src.length < BlockSize ∨ dst.length < BlockSize then
    none
  else
    match Decrypt (src.take BlockSize) c.key with
    | .error _ => none
    | .ok out => some (copyBytes dst out)

section ObjectLemmas

lemma NewCipher_ok {key : List Nat} {c : GingaCipher}
    (hc : NewCipher key = .ok c) : key.length = 32 ∧ c = ⟨key⟩ := by
  by_cases h : key.length = 32
  · refine ⟨h, ?_⟩
    simp [NewCipher, h] at hc
    exact hc.symm
  · simp [NewCipher, h] at hc

lemma copyBytes_of_le {dst out : List Nat} (hlen : out.length = 16)
    (hd : 16 ≤ dst.length) : copyBytes dst out = out ++ dst.drop 16 := by
  unfold copyBytes
  rw [hlen, min_eq_right (by omega), List.take_of_length_le (by omega)]

end ObjectLemmas

/-- The spec's reference definition of the subkey (spec §4.3), written with
`mod` exactly as the spec states it; compared against the source's
`subKey32` in the refinement theorem below. -/
def subKeySpecRef (key : Nat → Nat) (r i : Nat) : Nat :=
  rotl32 (key ((i + r) % 8) ^^^ (i * 73 + r * 91) % 2 ^ 32) ((r + i) % 32)

/-- C1: for every 16-byte block P and every 32-byte key K, decrypting the
encryption of P under K returns P, with both calls succeeding. -/
theorem encrypt_decrypt_roundtrip (plain key : List Nat)
    (hp : plain.length = 16) (hpb : ∀ x ∈ plain, x < 256)
    (hk : key.length = 32) (hkb : ∀ x ∈ key, x < 256) :
    ∃ c, Encrypt plain key = .ok c ∧ Decrypt c key = .ok plain := by
  have hkw : ∀ j, keyWords key j < 2 ^ 32 := keyWords_lt hkb
  have hs : StBound (stateOfBytes plain) := stateOfBytes_bound hpb
  refine ⟨bytesOfState (encRounds (keyWords key) (stateOfBytes plain) 16),
    Encrypt_ok hp hk, ?_⟩
  rw [Decrypt_ok (bytesOfState_length _) hk,
    stateOfBytes_bytesOfState (encRounds_bound _ _ hkw hs 16),
    decRounds_encRounds _ _ hkw hs 16,
    bytesOfState_stateOfBytes hp hpb]

/-- Witness for C1 at the all-zero block and all-zero key. -/
theorem encrypt_decrypt_roundtrip_witness :
    (List.replicate 16 0 : List Nat).length = 16 ∧
    (List.replicate 32 0 : List Nat).length = 32 ∧
    ∃ c, Encrypt (List.replicate 16 0) (List.replicate 32 0) = .ok c ∧
      Decrypt c (List.replicate 32 0) = .ok (List.replicate 16 0) :=
  ⟨by decide, by decide,
    encrypt_decrypt_roundtrip (List.replicate 16 0) (List.replicate 32 0)
      (by decide) (by decide) (by decide) (by decide)⟩

/-- C2: for every 32-bit word x, every 32-bit subkey k, and every round
index r in [0,16), the inverse round function undoes the round function. -/
theorem round_function_inverse (x k r : Nat) (hx : x < 2 ^ 32)
    (hk : k < 2 ^ 32) (hr : r < 16) :
    invRound32 (round32 x k r) k r = x :=
  invRound32_round32 r hx hk

/-- Witness for C2 at x = 3, k = 5, r = 7. -/
theorem round_function_inverse_witness :
    (3 : Nat) < 2 ^ 32 ∧ (5 : Nat) < 2 ^ 32 ∧ (7 : Nat) < 16 ∧
    invRound32 (round32 3 5 7) 5 7 = 3 :=
  ⟨by decide, by decide, by decide,
    round_function_inverse 3 5 7 (by decide) (by decide) (by decide)⟩

/-- C3: for every 4-word state s, applying the mix layer and then the
inverse mix layer restores s exactly, with both directions following the
sequential in-place update order of the source. -/
theorem mix_layer_inverse (s : State32) : invMixState32 (mixState32 s) = s :=
  invMixState32_mixState32 s

/-- C4: for every 32-bit value x, `deconfuse32 (confuse32 x) = x`,
independent of any key or round index. -/
theorem confusion_inverse (x : Nat) (hx : x < 2 ^ 32) :
    deconfuse32 (confuse32 x) = x :=
  deconfuse32_confuse32 hx

/-- Witness for C4 at x = 123456789. -/
theorem confusion_inverse_witness :
    (123456789 : Nat) < 2 ^ 32 ∧ deconfuse32 (confuse32 123456789) = 123456789 :=
  ⟨by decide, confusion_inverse 123456789 (by decide)⟩

/-- C5: for every 8-word key, round index r in [0,16) and word index i in
[0,4), the source's `subKey32` equals the spec's reference definition
`subKeySpecRef`; being a pure function of (key, r, i), the encrypting and
decrypting paths obtain identical subkeys. -/
theorem subkey_matches_spec (k : Nat → Nat) (r i : Nat) (hr : r < 16)
    (hi : i < 4) : subKey32 k r i = subKeySpecRef k r i := by
  unfold subKey32 subKeySpecRef
  rw [and_7, and_31]

/-- Witness for C5 at the identity key schedule input, r = 15, i = 3. -/
theorem subkey_matches_spec_witness :
    (15 : Nat) < 16 ∧ (3 : Nat) < 4 ∧
    subKey32 (fun j => j) 15 3 = subKeySpecRef (fun j => j) 15 3 :=
  ⟨by decide, by decide,
    subkey_matches_spec (fun j => j) 15 3 (by decide) (by decide)⟩

/-- C6: `Encrypt` returns the plaintext-size error exactly when the input
is not 16 bytes, the key-size error exactly when the input is 16 bytes but
the key is not 32 bytes, and otherwise succeeds with exactly 16 bytes; the
same contract holds for `Decrypt` with the ciphertext argument. -/
theorem size_validation_contract (plain key : List Nat) :
    (plain.length ≠ 16 →
      Encrypt plain key = .error "ginga: plaintext must be 16 bytes") ∧
    (plain.length = 16 → key.length ≠ 32 →
      Encrypt plain key = .error "ginga: key must be 32 bytes (256 bits)") ∧
    (plain.length = 16 → key.length = 32 →
      ∃ out, Encrypt plain key = .ok out ∧ out.length = 16) ∧
    (plain.length ≠ 16 →
      Decrypt plain key = .error "ginga: ciphertext must be 16 bytes") ∧
    (plain.length = 16 → key.length ≠ 32 →
      Decrypt plain key = .error "ginga: key must be 32 bytes (256 bits)") ∧
    (plain.length = 16 → key.length = 32 →
      ∃ out, Decrypt plain key = .ok out ∧ out.length = 16) := by
  refine ⟨?_, ?_, ?_, ?_, ?_, ?_⟩
  · intro h; simp [Encrypt, BlockSize, h]
  · intro h1 h2; simp [Encrypt, BlockSize, h1, h2]
  · intro h1 h2; exact ⟨_, Encrypt_ok h1 h2, bytesOfState_length _⟩
  · intro h; simp [Decrypt, BlockSize, h]
  · intro h1 h2; simp [Decrypt, BlockSize, h1, h2]
  · intro h1 h2; exact ⟨_, Decrypt_ok h1 h2, bytesOfState_length _⟩

/-- Witness for C6: a 15-byte block is rejected with the block-size error,
a 31-byte key with the key-size error, and valid sizes succeed. -/
theorem size_validation_contract_witness :
    Encrypt (List.replicate 15 0) (List.replicate 32 0)
      = .error "ginga: plaintext must be 16 bytes" ∧
    Encrypt (List.replicate 16 0) (List.replicate 31 0)
      = .error "ginga: key must be 32 bytes (256 bits)" ∧
    Decrypt (List.replicate 15 0) (List.replicate 32 0)
      = .error "ginga: ciphertext must be 16 bytes" ∧
    ∃ out, Encrypt (List.replicate 16 0) (List.replicate 32 0) = .ok out ∧
      out.length = 16 :=
  ⟨(size_validation_contract (List.replicate 15 0) (List.replicate 32 0)).1
      (by decide),
   (size_validation_contract (List.replicate 16 0) (List.replicate 31 0)).2.1
      (by decide) (by decide),
   (size_validation_contract (List.replicate 15 0) (List.replicate 32 0)).2.2.2.1
      (by decide),
   (size_validation_contract (List.replicate 16 0) (List.replicate 32 0)).2.2.1
      (by decide) (by decide)⟩

/-- C7: a cipher object built by `NewCipher` reports block size 16 and its
`Encrypt`/`Decrypt` methods write exactly the functional API's output for
the first 16 bytes of `src` into the first 16 bytes of `dst`, leaving the
rest of `dst` unchanged. -/
theorem cipher_object_refines_functional (key : List Nat) (c : GingaCipher)
    (hc : NewCipher key = .ok c) (dst src : List Nat)
    (hs : 16 ≤ src.length) (hd : 16 ≤ dst.length) :
    c.blockSize = 16 ∧
    (∃ out, Encrypt (src.take 16) key = .ok out ∧
      c.encryptInto dst src = some (out ++ dst.drop 16)) ∧
    (∃ out, Decrypt (src.take 16) key = .ok out ∧
      c.decryptInto dst src = some (out ++ dst.drop 16)) := by
  obtain ⟨hklen, rfl⟩ := NewCipher_ok hc
  have hsl : (src.take 16).length = 16 := by
    rw [List.length_take]; omega
  refine ⟨rfl, ⟨_, Encrypt_ok hsl hklen, ?_⟩, ⟨_, Decrypt_ok hsl hklen, ?_⟩⟩
  · simp only [GingaCipher.encryptInto, BlockSize, if_neg (by omega :
      ¬(src.length < 16 ∨ dst.length < 16))]
    rw [Encrypt_ok hsl hklen]
    exact congrArg some (copyBytes_of_le (bytesOfState_length _) hd)
  · simp only [GingaCipher.decryptInto, BlockSize, if_neg (by omega :
      ¬(src.length < 16 ∨ dst.length < 16))]
    rw [Decrypt_ok hsl hklen]
    exact congrArg some (copyBytes_of_le (bytesOfState_length _) hd)

/-- Witness for C7 at the all-zero key and all-zero 16-byte buffers. -/
theorem cipher_object_refines_functional_witness :
    NewCipher (List.replicate 32 0) = .ok ⟨List.replicate 32 0⟩ ∧
    ((GingaCipher.mk (List.replicate 32 0)).blockSize = 16 ∧
     (∃ out, Encrypt ((List.replicate 16 0).take 16) (List.replicate 32 0)
        = .ok out ∧
       (GingaCipher.mk (List.replicate 32 0)).encryptInto
          (List.replicate 16 0) (List.replicate 16 0)
        = some (out ++ (List.replicate 16 0 : List Nat).drop 16)) ∧
     (∃ out, Decrypt ((List.replicate 16 0).take 16) (List.replicate 32 0)
        = .ok out ∧
       (GingaCipher.mk (List.replicate 32 0)).decryptInto
          (List.replicate 16 0) (List.replicate 16 0)
        = some (out ++ (List.replicate 16 0 : List Nat).drop 16))) :=
  ⟨by simp [NewCipher],
    cipher_object_refines_functional (List.replicate 32 0)
      ⟨List.replicate 32 0⟩ (by simp [NewCipher]) (List.replicate 16 0)
      (List.replicate 16 0) (by decide) (by decide)⟩

/-- C8: for a cipher object built by `NewCipher`, `encryptInto` and
`decryptInto` panic (modelled as `none`) exactly when `src` or `dst` is
shorter than 16 bytes, and never panic otherwise. -/
theorem cipher_object_panic_contract (key : List Nat) (c : GingaCipher)
    (hc : NewCipher key = .ok c) (dst src : List Nat) :
    (c.encryptInto dst src = none ↔ src.length < 16 ∨ dst.length < 16) ∧
    (c.decryptInto dst src = none ↔ src.length < 16 ∨ dst.length < 16) := by
  obtain ⟨hklen, rfl⟩ := NewCipher_ok hc
  by_cases hcond : src.length < 16 ∨ dst.length < 16
  · constructor
    · simp [GingaCipher.encryptInto, BlockSize, hcond]
    · simp [GingaCipher.decryptInto, BlockSize, hcond]
  · have hsl : (src.take 16).length = 16 := by
      rw [List.length_take]; omega
    constructor
    · simp only [GingaCipher.encryptInto, BlockSize, if_neg hcond]
      rw [Encrypt_ok hsl hklen]
      simp [hcond]
    · simp only [GingaCipher.decryptInto, BlockSize, if_neg hcond]
      rw [Decrypt_ok hsl hklen]
      simp [hcond]

/-- Witness for C8: a 15-byte src panics, 16-byte buffers do not. -/
theorem cipher_object_panic_contract_witness :
    ((GingaCipher.mk (List.replicate 32 0)).encryptInto
        (List.replicate 16 0) (List.replicate 15 0) = none ↔
      (List.replicate 15 0 : List Nat).length < 16 ∨
      (List.replicate 16 0 : List Nat).length < 16) ∧
    ((GingaCipher.mk (List.replicate 32 0)).decryptInto
        (List.replicate 16 0) (List.replicate 15 0) = none ↔
      (List.replicate 15 0 : List Nat).length < 16 ∨
      (List.replicate 16 0 : List Nat).length < 16) :=
  cipher_object_panic_contract (List.replicate 32 0) ⟨List.replicate 32 0⟩
    (by simp [NewCipher]) (List.replicate 16 0) (List.replicate 15 0)

/-- C10: for every 16-byte block C and 32-byte key K, encrypting the
decryption of C under K returns C, so the cipher is a bijection on
16-byte blocks in both composition orders. -/
theorem decrypt_encrypt_roundtrip (ciphertext key : List Nat)
    (hp : ciphertext.length = 16) (hpb : ∀ x ∈ ciphertext, x < 256)
    (hk : key.length = 32) (hkb : ∀ x ∈ key, x < 256) :
    ∃ p, Decrypt ciphertext key = .ok p ∧ Encrypt p key = .ok ciphertext := by
  have hkw : ∀ j, keyWords key j < 2 ^ 32 := keyWords_lt hkb
  have hs : StBound (stateOfBytes ciphertext) := stateOfBytes_bound hpb
  refine ⟨bytesOfState (decRounds (keyWords key) (stateOfBytes ciphertext) 16),
    Decrypt_ok hp hk, ?_⟩
  rw [Encrypt_ok (bytesOfState_length _) hk,
    stateOfBytes_bytesOfState (decRounds_bound _ hkw 16 _ hs),
    encRounds_decRounds _ hkw 16 _ hs,
    bytesOfState_stateOfBytes hp hpb]

/-- Witness for C10 at an all-ones block and an all-twos key. -/
theorem decrypt_encrypt_roundtrip_witness :
    (List.replicate 16 1 : List Nat).length = 16 ∧
    (List.replicate 32 2 : List Nat).length = 32 ∧
    ∃ p, Decrypt (List.replicate 16 1) (List.replicate 32 2) = .ok p ∧
      Encrypt p (List.replicate 32 2) = .ok (List.replicate 16 1) :=
  ⟨by decide, by decide,
    decrypt_encrypt_roundtrip (List.replicate 16 1) (List.replicate 32 2)
      (by decide) (by decide) (by decide) (by decide)⟩

end Ginga
